import Mathlib

/-!
Verification of the Temporal Allocation Expansion & Organizational Hierarchy
Resolution Engine (process_resource_data.py and its validation helpers).

Dates are modelled as day ordinals (Nat): `daysFromCivil` maps a calendar date
to its ordinal (days since 0000-03-01) and `civilFromDays` inverts it, both
following the standard era-based civil-calendar algorithms.  Percentages are
rationals.  Pandas missing values (NaN) in dimension columns are modelled as
`Option.none`; pandas elementwise equality, under which NaN compares unequal
to everything including itself, is `maskEq`.  The final `sort_values` of the
expansion and pandas' unspecified tie order among equal keys only permute
rows, so the expansion output is modelled in generation order.
-/

namespace Resourcing

/-- Days since 0000-03-01 of a civil date (era-based civil calendar). -/
def daysFromCivil (y m d : Nat) : Nat :=
  let y1 := if m ≤ 2 then y - 1 else y
  let era := y1 / 400
  let yoe := y1 % 400
  let mp := if 2 < m then m - 3 else m + 9
  let doy := (153 * mp + 2) / 5 + d - 1
  let doe := yoe * 365 + yoe / 4 - yoe / 100 + doy
  era * 146097 + doe

/-- Civil date (year, month, day) of a day ordinal. -/
def civilFromDays (z : Nat) : Nat × Nat × Nat :=
  let era := z / 146097
  let doe := z % 146097
  let yoe := (doe - doe / 1460 + doe / 36524 - doe / 146096) / 365
  let doy := doe - (365 * yoe + yoe / 4 - yoe / 100)
  let mp := (5 * doy + 2) / 153
  let d := doy - (153 * mp + 2) / 5 + 1
  let m := if mp < 10 then mp + 3 else mp - 9
  (yoe + era * 400 + (if m ≤ 2 then 1 else 0), m, d)

def isLeapYear (y : Nat) : Bool :=
  (y % 4 == 0 && y % 100 != 0) || (y % 400 == 0)

def daysInMonth (y m : Nat) : Nat :=
  if m = 2 then (if isLeapYear y then 29 else 28)
  else if m = 4 ∨ m = 6 ∨ m = 9 ∨ m = 11 then 30
  else 31

/-- A row of the joined assignment table after date parsing
(`AsOfDate` already a timestamp, here a day ordinal). -/
structure Row where
  emp : String
  grp : Option String
  sub : Option String
  team : Option String
  percent : ℚ
  asOf : Nat
  firstName : Option String
  lastName : Option String
deriving DecidableEq

/-- A raw row before date parsing: `asOf = none` models an unparseable
`AsOfDate` cell (pd.to_datetime raises on it). -/
structure InRow where
  emp : String
  grp : Option String
  sub : Option String
  team : Option String
  percent : ℚ
  asOf : Option Nat
  firstName : Option String
  lastName : Option String
deriving DecidableEq

def parseRow (r : InRow) : Row :=
  ⟨r.emp, r.grp, r.sub, r.team, r.percent, r.asOf.getD 0, r.firstName, r.lastName⟩

def Row.toInRow (r : Row) : InRow :=
  ⟨r.emp, r.grp, r.sub, r.team, r.percent, some r.asOf, r.firstName, r.lastName⟩

/-- The repeating-group key: Employee_Number, Group, Subgroup, Team. -/
structure GroupKey where
  emp : String
  grp : Option String
  sub : Option String
  team : Option String
deriving DecidableEq

def groupKeyOf (r : Row) : GroupKey := ⟨r.emp, r.grp, r.sub, r.team⟩

/-- Pandas elementwise equality on a possibly-missing cell: a missing value
(NaN) compares unequal to everything, itself included. -/
def maskEq (a b : Option String) : Bool :=
  match a, b with
  | some x, some y => x == y
  | _, _ => false

/-- The boolean mask selecting the rows of one team assignment
(the conjunction of the per-column equality masks). -/
def matchesKey (r : Row) (k : GroupKey) : Bool :=
  r.emp == k.emp && maskEq r.grp k.grp && maskEq r.sub k.sub && maskEq r.team k.team

/-- drop_duplicates over the grouping columns: one key per distinct tuple
(pandas treats equal NaN patterns as duplicates there). -/
def uniqueAssignments (df : List Row) : List GroupKey :=
  (df.map groupKeyOf).dedup

/-- The rows selected by the mask for one key, re-sorted by AsOfDate. -/
def groupRows (df : List Row) (k : GroupKey) : List Row :=
  List.insertionSort (fun a b => a.asOf ≤ b.asOf) (df.filter (fun r => matchesKey r k))

/-- sorted(unique(AsOfDate)) over all rows of one employee, across all of
that employee's team assignments. -/
def employeeDates (df : List Row) (e : String) : List Nat :=
  List.insertionSort (· ≤ ·) (((df.filter (fun r => r.emp == e)).map Row.asOf).dedup)

/-- df['AsOfDate'].max() (0 for the empty table, where it is never used). -/
def maxDate (df : List Row) : Nat :=
  (df.map Row.asOf).foldr max 0

/-- End of the period starting at a breakpoint date: the day before the
employee's next AsOfDate (found positionally in the sorted unique date list),
or the dataset maximum when the breakpoint is the employee's last date. -/
def periodEnd (empDs : List Nat) (maxD : Nat) (start : Nat) : Nat :=
  match empDs.get? (empDs.indexOf start + 1) with
  | some nd => nd - 1
  | none => maxD

/-- Daily expansion of one team assignment: each breakpoint row with a valid
range and positive percent yields one copy per day of its period. -/
def expandGroup (df : List Row) (maxD : Nat) (k : GroupKey) : List Row :=
  let empDs := employeeDates df k.emp
  (groupRows df k).flatMap (fun r =>
    let e := periodEnd empDs maxD r.asOf
    if r.asOf ≤ e ∧ 0 < r.percent then
      (List.range (e + 1 - r.asOf)).map (fun i => { r with asOf := r.asOf + i })
    else [])

/-- The whole-table daily expansion over every unique team assignment. -/
def expandAll (df : List Row) : List Row :=
  (uniqueAssignments df).flatMap (expandGroup df (maxDate df))

/-- expand_with_missing_dates: the function body is wrapped in one
try/except returning the original frame, so an unparseable date anywhere
(pd.to_datetime raises on the whole column) or an empty expansion result
(indexing the column of an empty frame raises KeyError) returns the input
unchanged. -/
def expand_with_missing_dates (df : List InRow) : List InRow :=
  if df.all (fun r => r.asOf.isSome) then
    let out := expandAll (df.map parseRow)
    if out.isEmpty then df else out.map Row.toInRow
  else df

/-! ## Hierarchy Resolver -/

/-- Lookup in a cached dictionary (keyed by normalized employee strings). -/
def lookupA {β : Type} (m : List (String × β)) (k : String) : Option β :=
  match m with
  | [] => none
  | (a, b) :: rest => if a == k then some b else lookupA rest k

/-- The while-loop of get_manager_at_level_from_top: walk up the supervisor
mapping, appending each supervisor; the loop condition re-checks the visited
set only at the next iteration, after the node has been appended.  One fuel
unit per iteration; the callers pass `cache.length + 1`, which the loop can
never exhaust since every iteration adds a fresh cache key to `visited`. -/
def walkFuel (cache : List (String × String)) :
    Nat → List String → String → List String → List String
  | 0, _, _, path => path
  | fuel + 1, visited, current, path =>
    match lookupA cache current with
    | none => path
    | some sup =>
      if current ∈ visited then path
      else walkFuel cache fuel (current :: visited) sup (path ++ [sup])

/-- path_to_top built by get_manager_at_level_from_top (bottom-up order). -/
def path_to_top (cache : List (String × String)) (emp : String) : List String :=
  walkFuel cache (cache.length + 1) [] emp [emp]

/-- The while-loop of get_employee_level_from_top: counts supervisor hops,
returning none as soon as a visited node recurs (circular reference). -/
def levelWalk (cache : List (String × String)) :
    Nat → List String → String → Nat → Option Nat
  | 0, _, _, _ => none
  | fuel + 1, visited, current, count =>
    match lookupA cache current with
    | none => some count
    | some sup =>
      if current ∈ visited then none
      else levelWalk cache fuel (current :: visited) sup (count + 1)

/-- The per-key while-loop of get_max_org_levels: counts hops like
`levelWalk` but keeps the partial count when a cycle is detected. -/
def countWalk (cache : List (String × String)) :
    Nat → List String → String → Nat → Nat
  | 0, _, _, count => count
  | fuel + 1, visited, current, count =>
    match lookupA cache current with
    | none => count
    | some sup =>
      if current ∈ visited then count
      else countWalk cache fuel (current :: visited) sup (count + 1)

/-- get_manager_at_level_from_top (on the already-built caches): validates
the level, checks the employee exists in either cache, walks to the top,
reverses the path, and reads the name bound to index level-1. -/
def get_manager_at_level_from_top (cache : List (String × String))
    (names : List (String × Option String)) (emp : String) (level : Int) :
    Option String :=
  if level ≤ 0 then none
  else if (lookupA cache emp).isNone && (lookupA names emp).isNone then none
  else
    let pathFromTop := (path_to_top cache emp).reverse
    if level.toNat ≤ pathFromTop.length then
      match pathFromTop.get? (level.toNat - 1) with
      | some mgr => (lookupA names mgr).join
      | none => none
    else none

/-- get_employee_level_from_top (on the already-built caches). -/
def get_employee_level_from_top (cache : List (String × String))
    (names : List (String × Option String)) (emp : String) : Option Nat :=
  if (lookupA cache emp).isNone && (lookupA names emp).isNone then none
  else levelWalk cache (cache.length + 1) [] emp 0

/-- get_max_org_levels: maximum truncated-walk length over every key of the
supervisor cache (0 when there are no keys). -/
def get_max_org_levels (cache : List (String × String)) : Nat :=
  (cache.map Prod.fst).foldl
    (fun acc k => max acc (countWalk cache (cache.length + 1) [] k 0)) 0

/-- The source returns this fixed fallback only from its exception handler. -/
def fallbackMaxLevels : Nat := 5

/-! ## Supervisor cache construction (memoized module-level state) -/

/-- A row of the tblUKG table, as read for the caches. -/
structure UKGRow where
  empNo : Option Int
  supNo : Option Int
  firstName : Option String
  lastName : Option String
deriving DecidableEq

/-- str(int(x)): canonical string form of an identifier. -/
def normId (n : Int) : String := toString n

/-- Python dict assignment: overwrite in place or append a new entry. -/
def insertReplace {β : Type} (m : List (String × β)) (k : String) (v : β) :
    List (String × β) :=
  if (lookupA m k).isSome then
    m.map (fun p => if p.1 == k then (k, v) else p)
  else m ++ [(k, v)]

/-- The supervisor dictionary built from rows with both numbers present
(the SQL filters NULLs; pd.notna re-checks). -/
def buildSupMap (db : List UKGRow) : List (String × String) :=
  db.foldl (fun m r =>
    match r.empNo, r.supNo with
    | some e, some s => insertReplace m (normId e) (normId s)
    | _, _ => m) []

/-- full_name = f"{first} {last}".strip(), stored as None when empty. -/
def fullNameOf (r : UKGRow) : Option String :=
  let full := (r.firstName.getD "" ++ " " ++ r.lastName.getD "").trim
  if full = "" then none else some full

/-- The names dictionary built from rows with an employee number. -/
def buildNamesMap (db : List UKGRow) : List (String × Option String) :=
  db.foldl (fun m r =>
    match r.empNo with
    | some e => insertReplace m (normId e) (fullNameOf r)
    | none => m) []

/-- The two module-level globals (_supervisor_cache, _employee_names_cache);
`none` is Python's None before the first build. -/
structure CacheState where
  sup : Option (List (String × String))
  names : Option (List (String × Option String))
deriving DecidableEq

def initCacheState : CacheState := ⟨none, none⟩

/-- _build_supervisor_cache: returns immediately when the supervisor cache is
already populated (the guard never consults which source it was built from);
otherwise builds both dictionaries from the given database content. -/
def build_supervisor_cache (st : CacheState) (db : List UKGRow) : CacheState :=
  if st.sup.isSome then st
  else ⟨some (buildSupMap db), some (buildNamesMap db)⟩

/-! ## Allocation Validator -/

/-- The year-month label ('%Y-%m') of a row's AsOfDate. -/
def ymOf (r : Row) : Nat × Nat :=
  ((civilFromDays r.asOf).1, (civilFromDays r.asOf).2.1)

/-- A violation description appended by run_allocation_validation_tests:
either one over-allocation message per (employee, month) group, or a single
aggregate message counting the negative-percent records.  (The third branch
of the source, missing required columns, is vacuous on this typed table.) -/
inductive Violation where
  | overAlloc (emp : String) (ym : Nat × Nat) (total : ℚ)
  | negatives (count : Nat)
deriving DecidableEq

/-- run_allocation_validation_tests: per employee and month, flag sums above
100.01 (tolerance of 1 part in 10,000 over 100); then one aggregate finding
if any record has a negative percent. -/
def run_allocation_validation_tests (df : List Row) : List Violation :=
  let overs := (df.map Row.emp).dedup.flatMap (fun e =>
    let ed := df.filter (fun r => r.emp == e)
    ((ed.map ymOf).dedup).filterMap (fun m =>
      let tot := ((ed.filter (fun r => ymOf r = m)).map Row.percent).sum
      if 100 + 1 / 100 < tot then some (.overAlloc e m tot) else none))
  let negCount := (df.filter (fun r => r.percent < 0)).length
  overs ++ (if 0 < negCount then [.negatives negCount] else [])

/-- Percent sum of one (employee, month) group of the table. -/
def groupTotal (df : List Row) (e : String) (m : Nat × Nat) : ℚ :=
  (((df.filter (fun r => r.emp == e)).filter (fun r => ymOf r = m)).map Row.percent).sum

/-! ## Enrichment (add_calculated_columns) -/

/-- get_sprint_info: sprints of 14 days from 2025-01-01, 1-based, capped at
26, labelled by number and end date; none before the epoch.  The textual
label combines exactly these two values, modelled structurally. -/
def get_sprint_info (d : Nat) : Option (Nat × Nat) :=
  let epoch := daysFromCivil 2025 1 1
  if d < epoch then none
  else
    let n := min ((d - epoch) / 14 + 1) 26
    some (n, epoch + (n - 1) * 14 + 13)

/-- Employee_Name: "last, first" with the source's regex cleanup removing a
leading or trailing ", " left by a missing part. -/
def employeeNameOf (r : Row) : String :=
  let s := r.lastName.getD "" ++ ", " ++ r.firstName.getD ""
  let s1 := if s.startsWith ", " then s.drop 2 else s
  if s1.endsWith ", " then s1.dropRight 2 else s1

/-- One expanded row with all calculated columns attached. -/
structure OutRow where
  base : Row
  year : Nat
  yearMonth : Nat × Nat
  sprint : Option (Nat × Nat)
  sprintAllocation : ℚ
  runDate : Nat
  daysInMonthCol : Nat
  allocation : ℚ
  employeeName : String
  mgrs : List (Option String)
  levelFromTop : Option Nat
deriving DecidableEq

/-- The per-row column computations of add_calculated_columns; `now` is the
datetime.now() reading of the run. -/
def enrichRow (now : Nat) (cache : List (String × String))
    (names : List (String × Option String)) (maxLvls : Nat) (r : Row) : OutRow :=
  let c := civilFromDays r.asOf
  let dim := daysInMonth c.1 c.2.1
  { base := r
    year := c.1
    yearMonth := (c.1, c.2.1)
    sprint := get_sprint_info r.asOf
    sprintAllocation := 1 / 14
    runDate := now
    daysInMonthCol := dim
    allocation := r.percent / dim
    employeeName := employeeNameOf r
    mgrs := (List.range maxLvls).map
      (fun i => get_manager_at_level_from_top cache names r.emp (Int.ofNat (i + 1)))
    levelFromTop := get_employee_level_from_top cache names r.emp }

/-- add_calculated_columns: the whole body sits in one try/except returning
the input unchanged, and the only raising step on a typed table is
pd.to_datetime on an unparseable AsOfDate; otherwise every calculated column
is added (database present, so hierarchy columns included). -/
def add_calculated_columns (now : Nat) (cache : List (String × String))
    (names : List (String × Option String)) (df : List InRow) :
    List InRow ⊕ List OutRow :=
  if df.all (fun r => r.asOf.isSome) then
    .inr ((df.map parseRow).map (enrichRow now cache names (get_max_org_levels cache)))
  else .inl df

/-- Steps 3 and 4 of the pipeline: daily expansion then calculated columns. -/
def runPipeline (now : Nat) (cache : List (String × String))
    (names : List (String × Option String)) (df : List InRow) :
    List InRow ⊕ List OutRow :=
  add_calculated_columns now cache names (expand_with_missing_dates df)

/-- Every column of an output row except RunDate. -/
def OutRow.exceptRunDate (o : OutRow) :
    Row × Nat × (Nat × Nat) × Option (Nat × Nat) × ℚ × Nat × ℚ × String ×
      List (Option String) × Option Nat :=
  (o.base, o.year, o.yearMonth, o.sprint, o.sprintAllocation, o.daysInMonthCol,
    o.allocation, o.employeeName, o.mgrs, o.levelFromTop)

/-- A pipeline result with the RunDate column projected away. -/
def exceptRunDates (res : List InRow ⊕ List OutRow) :
    List InRow ⊕ List (Row × Nat × (Nat × Nat) × Option (Nat × Nat) × ℚ × Nat ×
      ℚ × String × List (Option String) × Option Nat) :=
  Sum.map id (List.map OutRow.exceptRunDate) res

/-! ## Concrete instances used by counterexamples and witnesses -/

instance : IsTotal Row (fun a b : Row => a.asOf ≤ b.asOf) :=
  ⟨fun a b => Nat.le_total a.asOf b.asOf⟩

instance : IsTrans Row (fun a b : Row => a.asOf ≤ b.asOf) :=
  ⟨fun _ _ _ h h2 => Nat.le_trans h h2⟩

/-- Claim C2's first input row: E1, team A, 100% at 2025-01-01. -/
def c2Row1 : InRow :=
  ⟨"E1", some "G", some "S", some "A", 100, some (daysFromCivil 2025 1 1), none, none⟩

/-- Claim C2's second input row: E1, team A, 0% (exit) at 2025-06-01. -/
def c2Row2 : InRow :=
  ⟨"E1", some "G", some "S", some "A", 0, some (daysFromCivil 2025 6 1), none, none⟩

/-- A group of employee E with a single open-ended positive breakpoint at
day 0. -/
def c1RowT1 : Row := ⟨"E", some "G", some "S", some "T1", 100, 0, none, none⟩

/-- A sibling group of the same employee E with a later breakpoint at day 5. -/
def c1RowT2 : Row := ⟨"E", some "G", some "S", some "T2", 100, 5, none, none⟩

/-- First of two same-date breakpoints of one group (60% at day 0). -/
def c1DupA : Row := ⟨"F", some "G", some "S", some "T", 60, 0, none, none⟩

/-- Second breakpoint of the same group at the same date (40% at day 0):
the spec keeps same-date duplicates un-merged. -/
def c1DupB : Row := ⟨"F", some "G", some "S", some "T", 40, 0, none, none⟩

/-- A row whose Team dimension value is missing (NaN). -/
def c4Row : Row := ⟨"E", some "G", some "S", none, 100, 0, none, none⟩

/-- A fully-dimensioned row used to witness the grouping partition. -/
def w4Row : Row := ⟨"W", some "G", some "S", some "T", 100, 3, none, none⟩

/-- A row whose AsOfDate cell cannot be parsed. -/
def c6BadRow : InRow := ⟨"A1", some "G", some "S", some "X", 100, none, none, none⟩

/-- A well-formed row of a second, unrelated group (breakpoint at day 0). -/
def c6GoodRow1 : InRow := ⟨"B1", some "G", some "S", some "Y", 100, some 0, none, none⟩

/-- A second breakpoint of that group (day 2). -/
def c6GoodRow2 : InRow := ⟨"B1", some "G", some "S", some "Y", 50, some 2, none, none⟩

/-- First database source for the cache-invalidation scenario. -/
def c9Db1 : List UKGRow := [⟨some 1, some 2, none, none⟩]

/-- A different database source with different supervisor content. -/
def c9Db2 : List UKGRow := [⟨some 3, some 4, none, none⟩]

/-- A single well-formed input row for the idempotence scenario. -/
def c8Row : InRow :=
  ⟨"E", some "G", some "S", some "T", 100, some (daysFromCivil 2025 1 1), some "Jo", some "Doe"⟩

/-- E2 at 60% on 2025-01-01 (first of two concurrent over-allocated rows). -/
def w5a : Row := ⟨"E2", some "G", some "S", some "T1", 60, daysFromCivil 2025 1 1, none, none⟩

/-- E2 at 50% on 2025-01-01 (second concurrent row: 110% total). -/
def w5b : Row := ⟨"E2", some "G", some "S", some "T2", 50, daysFromCivil 2025 1 1, none, none⟩

/-- A record with a negative percent. -/
def w5n : Row := ⟨"E3", some "G", some "S", some "T1", -5, daysFromCivil 2025 1 1, none, none⟩

/-- The expanded table fed to the Allocation Validator scenarios. -/
def c5df : List Row := [w5a, w5b, w5n]

/-! ## Theorems -/

set_option maxRecDepth 100000 in
/-- Claim C2 (confirmed): on the two-row input (E1, team A, 100% at
2025-01-01; 0% at 2025-06-01), day-granularity expansion produces exactly
one record per day from 2025-01-01 through 2025-05-31 inclusive (151 days,
in order), each with percent 100, and no record dated 2025-06-01 or later. -/
theorem exit_scenario_daily_expansion :
    ((expand_with_missing_dates [c2Row1, c2Row2]).map (fun r => r.asOf) =
      (List.range 151).map (fun i => some (daysFromCivil 2025 1 1 + i))) ∧
    (∀ r ∈ expand_with_missing_dates [c2Row1, c2Row2],
      r.percent = 100 ∧ r.asOf.getD 0 < daysFromCivil 2025 6 1) ∧
    daysFromCivil 2025 6 1 = daysFromCivil 2025 1 1 + 151 := by
  decide

/-- Claim C10 (confirmed): get_manager_at_level_from_top returns none for
every level at most 0, for every employee and cache state. -/
theorem nonpositive_level_returns_none (cache : List (String × String))
    (names : List (String × Option String)) (emp : String) (level : Int)
    (h : level ≤ 0) :
    get_manager_at_level_from_top cache names emp level = none := by
  unfold get_manager_at_level_from_top
  rw [if_pos h]

/-- Claim C10 witness: the theorem applied at level 0 and at a negative
level on concrete caches. -/
theorem nonpositive_level_returns_none_witness :
    get_manager_at_level_from_top [("1", "2")] [] "1" 0 = none ∧
    get_manager_at_level_from_top [] [] "7" (-3) = none :=
  ⟨nonpositive_level_returns_none _ _ _ _ (by decide),
   nonpositive_level_returns_none _ _ _ _ (by decide)⟩

/-- Claim C9 counterexample: after a first build from one database source,
invoking the builder against a different source returns the first source's
mappings unchanged, not a recomputation from the new source. -/
theorem cache_not_invalidated_on_new_source :
    build_supervisor_cache (build_supervisor_cache initCacheState c9Db1) c9Db2 ≠
      build_supervisor_cache initCacheState c9Db2 ∧
    (build_supervisor_cache (build_supervisor_cache initCacheState c9Db1) c9Db2).sup =
      some [("1", "2")] := by
  decide

/-- Claim C9 (corrected): the memoized cache is never invalidated within a
process — a second build against any source, same or different, is a no-op
returning the first source's mappings. -/
theorem second_build_reuses_first (db1 db2 : List UKGRow) :
    build_supervisor_cache (build_supervisor_cache initCacheState db1) db2 =
      build_supervisor_cache initCacheState db1 := by
  simp [build_supervisor_cache, initCacheState]

/-- Claim C6 counterexample: with one unparseable date in one group, the
whole table — including the other, well-formed group — is returned
unexpanded; the well-formed group alone would have expanded to different
rows. -/
theorem malformed_date_blocks_whole_table :
    expand_with_missing_dates [c6BadRow, c6GoodRow1, c6GoodRow2] =
      [c6BadRow, c6GoodRow1, c6GoodRow2] ∧
    expand_with_missing_dates [c6GoodRow1, c6GoodRow2] ≠ [c6GoodRow1, c6GoodRow2] ∧
    (expand_with_missing_dates [c6GoodRow1, c6GoodRow2]).length = 3 := by
  decide

/-- An assignment group whose mask selects no rows expands to nothing. -/
theorem expandGroup_nil_of_groupRows_nil {df : List Row} {m : Nat} {k : GroupKey}
    (h : groupRows df k = []) : expandGroup df m k = [] := by
  simp [expandGroup, h]

/-- An entry mapped to the empty list can be dropped from a flatMap without
changing the result. -/
theorem flatMap_erase_nil {α β : Type} [DecidableEq α] {g : α → List β} {k : α}
    (hg : g k = []) : ∀ l : List α,
      l.flatMap g = (l.filter (fun x => x ≠ k)).flatMap g := by
  intro l
  induction l with
  | nil => rfl
  | cons x xs ih =>
    by_cases hx : x = k
    · rw [hx]
      have hfil : (k :: xs).filter (fun x => x ≠ k) = xs.filter (fun x => x ≠ k) := by
        simp
      rw [List.flatMap_cons, hg, List.nil_append, ih, hfil]
    · have hfil : (x :: xs).filter (fun x => x ≠ k) = x :: xs.filter (fun x => x ≠ k) := by
        simp [hx]
      rw [hfil, List.flatMap_cons, List.flatMap_cons, ih]

/-- Claim C6 (corrected): an unparseable date anywhere in the input makes
the expansion engine return the entire original table unexpanded (the
exception aborts every group, not just the malformed one); a group that is
empty after mask filtering expands to nothing and is skipped — dropping its
key leaves the output unchanged, every other group expanding as before. -/
theorem malformed_dates_return_input (df : List InRow) (df2 : List Row)
    (k : GroupKey) :
    ((∃ r ∈ df, r.asOf = none) → expand_with_missing_dates df = df) ∧
    (groupRows df2 k = [] →
      expandGroup df2 (maxDate df2) k = [] ∧
      expandAll df2 =
        ((uniqueAssignments df2).filter (fun k2 => k2 ≠ k)).flatMap
          (expandGroup df2 (maxDate df2))) := by
  constructor
  · intro h
    unfold expand_with_missing_dates
    have hall : df.all (fun r => r.asOf.isSome) = false := by
      rw [List.all_eq_false]
      obtain ⟨r, hr, hn⟩ := h
      exact ⟨r, hr, by simp [hn]⟩
    simp [hall]
  · intro h
    refine ⟨expandGroup_nil_of_groupRows_nil h, ?_⟩
    unfold expandAll
    exact flatMap_erase_nil (expandGroup_nil_of_groupRows_nil h) _

/-- Claim C6 witness: the theorem applied to a one-row table with a
malformed date, and to a two-row table whose missing-Team group selects no
rows while the other group still expands. -/
theorem malformed_dates_return_input_witness :
    expand_with_missing_dates [c6BadRow] = [c6BadRow] ∧
    (expandGroup [c4Row, w4Row] (maxDate [c4Row, w4Row]) (groupKeyOf c4Row) = [] ∧
      expandAll [c4Row, w4Row] =
        ((uniqueAssignments [c4Row, w4Row]).filter
          (fun k2 => k2 ≠ groupKeyOf c4Row)).flatMap
          (expandGroup [c4Row, w4Row] (maxDate [c4Row, w4Row]))) :=
  ⟨(malformed_dates_return_input [c6BadRow] [] (groupKeyOf c4Row)).1
     ⟨c6BadRow, List.mem_cons_self _ _, rfl⟩,
   (malformed_dates_return_input [c6BadRow] [c4Row, w4Row] (groupKeyOf c4Row)).2
     (by decide)⟩

/-- Claim C8 counterexample: two runs of the pipeline over the same input at
different clock readings produce different output tables (the RunDate
column records each run's execution time, so it differs between the runs). -/
theorem rundate_differs_between_runs :
    Sum.elim (fun _ => ([] : List Nat)) (List.map OutRow.runDate)
        (runPipeline 0 [] [] [c8Row]) = [0] ∧
    Sum.elim (fun _ => ([] : List Nat)) (List.map OutRow.runDate)
        (runPipeline 1 [] [] [c8Row]) = [1] ∧
    runPipeline 0 [] [] [c8Row] ≠ runPipeline 1 [] [] [c8Row] := by
  refine ⟨by decide, by decide, fun h => ?_⟩
  have h0 : Sum.elim (fun _ => ([] : List Nat)) (List.map OutRow.runDate)
      (runPipeline 0 [] [] [c8Row]) = [0] := by decide
  rw [h] at h0
  have h1 : Sum.elim (fun _ => ([] : List Nat)) (List.map OutRow.runDate)
      (runPipeline 1 [] [] [c8Row]) = [1] := by decide
  rw [h0] at h1
  exact absurd h1 (by decide)

/-- RunDate is the only enrichment column reading the clock: stripping it
makes the per-row enrichment independent of the run timestamp. -/
theorem map_exceptRunDate_enrich (now1 now2 : Nat) (cache : List (String × String))
    (names : List (String × Option String)) (maxL : Nat) (l : List Row) :
    (l.map (enrichRow now1 cache names maxL)).map OutRow.exceptRunDate =
      (l.map (enrichRow now2 cache names maxL)).map OutRow.exceptRunDate := by
  induction l with
  | nil => rfl
  | cons x xs ih =>
    simp only [List.map_cons]
    rw [ih]
    rfl

/-- Claim C8 (corrected): running the expansion plus enrichment twice on the
same input yields outputs identical in every column except RunDate, which
records each run's execution timestamp; with equal clock readings the runs
are byte-identical. -/
theorem pipeline_deterministic_except_rundate (now1 now2 : Nat)
    (cache : List (String × String)) (names : List (String × Option String))
    (df : List InRow) :
    exceptRunDates (runPipeline now1 cache names df) =
      exceptRunDates (runPipeline now2 cache names df) := by
  unfold runPipeline add_calculated_columns
  split
  · exact congrArg Sum.inr
      (map_exceptRunDate_enrich now1 now2 cache names (get_max_org_levels cache)
        (List.map parseRow (expand_with_missing_dates df)))
  · rfl

/-- A successful dictionary lookup means the key occurs in the key list. -/
theorem lookupA_mem {β : Type} {m : List (String × β)} {k : String} {v : β}
    (h : lookupA m k = some v) : k ∈ m.map Prod.fst := by
  induction m with
  | nil => simp [lookupA] at h
  | cons p rest ih =>
    obtain ⟨a, b⟩ := p
    by_cases hak : a = k
    · subst hak; simp
    · have h2 : lookupA rest k = some v := by
        simpa [lookupA, hak] using h
      simp [ih h2]

/-- A key occurring in the key list has a successful lookup. -/
theorem mem_lookupA {β : Type} {m : List (String × β)} {k : String}
    (h : k ∈ m.map Prod.fst) : ∃ v, lookupA m k = some v := by
  induction m with
  | nil => simp at h
  | cons p rest ih =>
    obtain ⟨a, b⟩ := p
    by_cases hak : a = k
    · exact ⟨b, by simp [lookupA, hak]⟩
    · have h2 : k ∈ rest.map Prod.fst := by
        rcases List.mem_cons.mp h with h3 | h3
        · exact absurd h3.symm hak
        · exact h3
      obtain ⟨v, hv⟩ := ih h2
      exact ⟨v, by simp [lookupA, hak, hv]⟩

/-- A list with two distinct members has length at least two. -/
theorem two_mem_two_le_length {α : Type} {l : List α} {a b : α}
    (ha : a ∈ l) (hb : b ∈ l) (hab : a ≠ b) : 2 ≤ l.length := by
  induction l with
  | nil => simp at ha
  | cons x xs ih =>
    rcases List.mem_cons.mp ha with rfl | ha2
    · rcases List.mem_cons.mp hb with rfl | hb2
      · exact absurd rfl hab
      · have := List.length_pos_of_mem hb2
        simp [List.length_cons]; omega
    · rcases List.mem_cons.mp hb with rfl | hb2
      · have := List.length_pos_of_mem ha2
        simp [List.length_cons]; omega
      · have := ih ha2 hb2
        simp [List.length_cons]; omega

/-- Claim C3 counterexample: on the two-node cycle the walk's root-path has
length 3, not at most 2 — the repeated node is appended once more before the
visited check fires at the next iteration. -/
theorem cycle_path_exceeds_two :
    path_to_top [("A", "B"), ("B", "A")] "A" = ["A", "B", "A"] ∧
    ¬ (path_to_top [("A", "B"), ("B", "A")] "A").length ≤ 2 := by
  decide

/-- Claim C3 (corrected): for every supervisor mapping containing the
two-node cycle a→b, b→a, resolving a's hierarchy terminates with the
root-path [a, b, a] of length 3 (the walk re-appends the repeated node and
then stops), and depth_of a is undetermined (none) rather than an error. -/
theorem cycle_walk_terminates (cache : List (String × String))
    (names : List (String × Option String)) (a b : String) (hab : a ≠ b)
    (ha : lookupA cache a = some b) (hb : lookupA cache b = some a) :
    path_to_top cache a = [a, b, a] ∧
    get_employee_level_from_top cache names a = none := by
  have hma : a ∈ cache.map Prod.fst := lookupA_mem ha
  have hmb : b ∈ cache.map Prod.fst := lookupA_mem hb
  have h2 : 2 ≤ cache.length := by
    have := two_mem_two_le_length hma hmb hab
    simpa using this
  obtain ⟨n, hn⟩ : ∃ n, cache.length + 1 = n + 3 := ⟨cache.length - 2, by omega⟩
  constructor
  · show walkFuel cache (cache.length + 1) [] a [a] = [a, b, a]
    rw [hn]
    simp [walkFuel, ha, hb, hab, Ne.symm hab]
  · have hlv : get_employee_level_from_top cache names a =
        levelWalk cache (cache.length + 1) [] a 0 := by
      simp [get_employee_level_from_top, ha]
    rw [hlv, hn]
    simp [levelWalk, ha, hb, Ne.symm hab]

/-- Claim C3 witness: the theorem applied to the concrete cycle C→D, D→C. -/
theorem cycle_walk_terminates_witness :
    path_to_top [("C", "D"), ("D", "C")] "C" = ["C", "D", "C"] ∧
    get_employee_level_from_top [("C", "D"), ("D", "C")] [] "C" = none :=
  cycle_walk_terminates [("C", "D"), ("D", "C")] [] "C" "D"
    (by decide) (by decide) (by decide)

/-- When the depth walk succeeds, the max-levels walk (same loop, but
keeping the partial count on a cycle) computes the same value. -/
theorem levelWalk_eq_some_countWalk (cache : List (String × String)) :
    ∀ (fuel : Nat) (visited : List String) (current : String) (count d : Nat),
      levelWalk cache fuel visited current count = some d →
      countWalk cache fuel visited current count = d := by
  intro fuel
  induction fuel with
  | zero => intro v c n d h; simp [levelWalk] at h
  | succ f ih =>
    intro v c n d h
    cases hl : lookupA cache c with
    | none =>
      simp [levelWalk, hl] at h
      simp [countWalk, hl, h]
    | some sup =>
      by_cases hv : c ∈ v
      · simp [levelWalk, hl, hv] at h
      · simp only [levelWalk, hl, hv, if_neg] at h
        simp only [countWalk, hl]
        rw [if_neg hv]
        exact ih _ _ _ _ h

/-- Two foldl-max accumulations agree when the folded functions agree on the
list's members. -/
theorem foldl_max_congr (f g : String → Nat) :
    ∀ (l : List String), (∀ k ∈ l, f k = g k) → ∀ acc : Nat,
      l.foldl (fun a k => max a (f k)) acc = l.foldl (fun a k => max a (g k)) acc := by
  intro l
  induction l with
  | nil => intro _ _; rfl
  | cons x xs ih =>
    intro h acc
    rw [List.foldl_cons, List.foldl_cons, h x (List.mem_cons_self _ _)]
    exact ih (fun k hk => h k (List.mem_cons.mpr (Or.inr hk))) _

/-- Claim C7 counterexample: with an empty supervisor edge set,
get_max_org_levels returns 0, not the fixed fallback value (5, which the
source returns only from its exception handler); and on a pure two-node
cycle it returns 2 although depth_of is undetermined for both employees, so
it is not the maximum of the depth_of values either. -/
theorem empty_cache_max_levels_not_fallback :
    get_max_org_levels [] = 0 ∧
    get_max_org_levels [] ≠ fallbackMaxLevels ∧
    get_max_org_levels [("A", "B"), ("B", "A")] = 2 ∧
    get_employee_level_from_top [("A", "B"), ("B", "A")] [] "A" = none ∧
    get_employee_level_from_top [("A", "B"), ("B", "A")] [] "B" = none := by
  decide

/-- Claim C7 (corrected): get_max_org_levels returns 0 on an empty edge set
(the fallback 5 is only for internal errors), and when depth_of is
determined for every employee with an outgoing supervisor edge it returns
the maximum of those depth_of values. -/
theorem max_org_levels_spec (cache : List (String × String))
    (names : List (String × Option String)) :
    (cache = [] → get_max_org_levels cache = 0) ∧
    ((∀ k ∈ cache.map Prod.fst, (get_employee_level_from_top cache names k).isSome) →
      get_max_org_levels cache =
        ((cache.map Prod.fst).map
          (fun k => (get_employee_level_from_top cache names k).getD 0)).foldl max 0) := by
  constructor
  · intro h; subst h; rfl
  · intro h
    rw [List.foldl_map]
    unfold get_max_org_levels
    apply foldl_max_congr
    intro k hk
    obtain ⟨v, hv⟩ := mem_lookupA hk
    have hlv : get_employee_level_from_top cache names k =
        levelWalk cache (cache.length + 1) [] k 0 := by
      simp [get_employee_level_from_top, hv]
    have hs := h k hk
    rw [hlv] at hs
    obtain ⟨d, hd⟩ := Option.isSome_iff_exists.mp hs
    rw [levelWalk_eq_some_countWalk cache _ _ _ _ _ hd, hlv, hd]
    rfl

/-- Claim C7 witness: the theorem applied to the empty edge set and to a
one-edge set where every keyed employee has a determined depth. -/
theorem max_org_levels_spec_witness :
    get_max_org_levels [] = 0 ∧
    get_max_org_levels [("1", "2")] =
      (([("1", "2")].map Prod.fst).map
        (fun k => (get_employee_level_from_top [("1", "2")] [] k).getD 0)).foldl max 0 :=
  ⟨(max_org_levels_spec [] []).1 rfl,
   (max_org_levels_spec [("1", "2")] []).2 (by decide)⟩

/-- Claim C5 (confirmed): on every expanded table the validator's returned
finding list contains one over-allocation finding for each (employee,
month) group whose percent sum exceeds 100 by more than 1/100 (1 part in
10,000 of 100), and a negative-percent finding (counting the offending
records) whenever any record has a negative percent; being a pure total
function it neither raises nor modifies its input. -/
theorem validator_flags_violations (df : List Row) :
    (∀ (e : String) (m : Nat × Nat), (∃ r ∈ df, r.emp = e ∧ ymOf r = m) →
      100 + 1 / 100 < groupTotal df e m →
      Violation.overAlloc e m (groupTotal df e m) ∈ run_allocation_validation_tests df) ∧
    ((∃ r ∈ df, r.percent < 0) →
      Violation.negatives ((df.filter (fun r => r.percent < 0)).length) ∈
        run_allocation_validation_tests df) := by
  constructor
  · rintro e m ⟨r, hr, hre, hrm⟩ htot
    simp only [run_allocation_validation_tests]
    apply List.mem_append_left
    apply List.mem_flatMap.mpr
    refine ⟨e, List.mem_dedup.mpr (List.mem_map.mpr ⟨r, hr, hre⟩), ?_⟩
    have hred : r ∈ df.filter (fun r => r.emp == e) :=
      List.mem_filter.mpr ⟨hr, by simp [hre]⟩
    apply List.mem_filterMap.mpr
    refine ⟨m, List.mem_dedup.mpr (List.mem_map.mpr ⟨r, hred, hrm⟩), ?_⟩
    have hgt : (((df.filter (fun r => r.emp == e)).filter
        (fun r => ymOf r = m)).map Row.percent).sum = groupTotal df e m := rfl
    rw [hgt, if_pos htot]
  · rintro ⟨r, hr, hneg⟩
    simp only [run_allocation_validation_tests]
    apply List.mem_append_right
    have hmem : r ∈ df.filter (fun r => r.percent < 0) :=
      List.mem_filter.mpr ⟨hr, decide_eq_true hneg⟩
    have hpos : 0 < (df.filter (fun r => r.percent < 0)).length :=
      List.length_pos_of_mem hmem
    rw [if_pos hpos]
    exact List.mem_singleton.mpr rfl

/-- Claim C5 witness: the theorem applied to the concrete table with E2
over-allocated at 110% in January 2025 and one negative-percent record. -/
theorem validator_flags_violations_witness :
    Violation.overAlloc "E2" (2025, 1) 110 ∈ run_allocation_validation_tests c5df ∧
    Violation.negatives 1 ∈ run_allocation_validation_tests c5df := by
  have hfil : ((c5df.filter (fun r => r.emp == "E2")).filter
      (fun r => ymOf r = (2025, 1))) = [w5a, w5b] := by decide
  have hgt : groupTotal c5df "E2" (2025, 1) = 110 := by
    unfold groupTotal
    rw [hfil]
    norm_num [w5a, w5b, List.sum_cons, List.sum_nil]
  constructor
  · have h := (validator_flags_violations c5df).1 "E2" (2025, 1)
      ⟨w5a, by decide, by decide, by decide⟩ (by rw [hgt]; norm_num)
    rwa [hgt] at h
  · have h := (validator_flags_violations c5df).2 ⟨w5n, by decide, by decide⟩
    rwa [show (c5df.filter (fun r => r.percent < 0)).length = 1 from by decide] at h

/-- A cell-level mask equality implies value equality (both cells present
and equal). -/
theorem maskEq_eq {a b : Option String} (h : maskEq a b = true) : a = b := by
  cases a <;> cases b <;> simp_all [maskEq]

/-- A row selected by a key's mask has exactly that key as its group key. -/
theorem matchesKey_groupKey {r : Row} {k : GroupKey} (h : matchesKey r k = true) :
    groupKeyOf r = k := by
  unfold matchesKey at h
  simp only [Bool.and_eq_true, beq_iff_eq] at h
  obtain ⟨⟨⟨h1, h2⟩, h3⟩, h4⟩ := h
  cases k
  simp only [groupKeyOf, GroupKey.mk.injEq]
  exact ⟨h1, maskEq_eq h2, maskEq_eq h3, maskEq_eq h4⟩

/-- A row with every dimension value present matches its own group key. -/
theorem matchesKey_self {r : Row} (h2 : r.grp.isSome) (h3 : r.sub.isSome)
    (h4 : r.team.isSome) : matchesKey r (groupKeyOf r) = true := by
  obtain ⟨g, hg⟩ := Option.isSome_iff_exists.mp h2
  obtain ⟨s, hs⟩ := Option.isSome_iff_exists.mp h3
  obtain ⟨t, ht⟩ := Option.isSome_iff_exists.mp h4
  simp [matchesKey, groupKeyOf, maskEq, hg, hs, ht]

/-- A row with any missing dimension value matches no key at all. -/
theorem missing_matches_none {r : Row}
    (h : r.grp = none ∨ r.sub = none ∨ r.team = none) :
    ∀ k, matchesKey r k = false := by
  intro k
  rcases h with h | h | h <;> simp [matchesKey, h, maskEq]

/-- Claim C4 counterexample: a row whose Team value is missing gets its own
key in the de-duplicated key list, but the mask-based selection for that
key (NaN compares unequal to NaN) returns no rows, so the row belongs to no
group and contributes nothing to the expansion. -/
theorem missing_dimension_row_unmatched :
    uniqueAssignments [c4Row] = [groupKeyOf c4Row] ∧
    groupRows [c4Row] (groupKeyOf c4Row) = [] ∧
    c4Row ∉ groupRows [c4Row] (groupKeyOf c4Row) ∧
    expandAll [c4Row] = [] := by
  decide

/-- Claim C4 (corrected): the normalizer produces exactly one key per
distinct (employee, Group, Subgroup, Team) tuple (missing values forming
their own distinct key values), each group holds its rows sorted by date,
and a row with every dimension present belongs to exactly its own key's
group; but a row with any missing dimension value matches no group at all
and is dropped from the expansion. -/
theorem grouping_partition (df : List Row) (r : Row) (hr : r ∈ df) :
    (uniqueAssignments df).Nodup ∧
    groupKeyOf r ∈ uniqueAssignments df ∧
    (∀ k, List.Sorted (fun a b : Row => a.asOf ≤ b.asOf) (groupRows df k)) ∧
    ((r.grp.isSome ∧ r.sub.isSome ∧ r.team.isSome) →
      ∀ k : GroupKey, r ∈ groupRows df k ↔ k = groupKeyOf r) ∧
    ((r.grp = none ∨ r.sub = none ∨ r.team = none) →
      ∀ k : GroupKey, r ∉ groupRows df k) := by
  refine ⟨List.nodup_dedup _,
    List.mem_dedup.mpr (List.mem_map.mpr ⟨r, hr, rfl⟩),
    fun k => List.sorted_insertionSort _ _, ?_, ?_⟩
  · rintro ⟨h2, h3, h4⟩ k
    unfold groupRows
    rw [List.mem_insertionSort, List.mem_filter]
    constructor
    · rintro ⟨-, hm⟩
      exact (matchesKey_groupKey hm).symm
    · rintro rfl
      exact ⟨hr, matchesKey_self h2 h3 h4⟩
  · intro h k hmem
    unfold groupRows at hmem
    rw [List.mem_insertionSort, List.mem_filter] at hmem
    rw [missing_matches_none h k] at hmem
    exact absurd hmem.2 (by simp)

/-- Claim C4 witness: the theorem applied to a fully-dimensioned row (which
belongs exactly to its own group) and to the missing-Team row (which
belongs to no group). -/
theorem grouping_partition_witness :
    (uniqueAssignments [w4Row]).Nodup ∧
    (w4Row ∈ groupRows [w4Row] (groupKeyOf w4Row) ↔ groupKeyOf w4Row = groupKeyOf w4Row) ∧
    c4Row ∉ groupRows [c4Row] (groupKeyOf c4Row) :=
  ⟨(grouping_partition [w4Row] w4Row (List.mem_cons_self _ _)).1,
   (grouping_partition [w4Row] w4Row (List.mem_cons_self _ _)).2.2.2.1
     (by decide) (groupKeyOf w4Row),
   (grouping_partition [c4Row] c4Row (List.mem_cons_self _ _)).2.2.2.2
     (by decide) (groupKeyOf c4Row)⟩

/-- A selected key's mask forces equality of the employee columns. -/
theorem matchesKey_emp {r : Row} {k : GroupKey} (h : matchesKey r k = true) :
    r.emp = k.emp := by
  unfold matchesKey at h
  simp only [Bool.and_eq_true, beq_iff_eq] at h
  exact h.1.1.1

/-- Membership in a group is membership in the table plus passing the mask. -/
theorem mem_groupRows_matches {df : List Row} {k : GroupKey} {b : Row}
    (h : b ∈ groupRows df k) : b ∈ df ∧ matchesKey b k = true := by
  unfold groupRows at h
  rw [List.mem_insertionSort, List.mem_filter] at h
  exact h

/-- The key list is duplicate-free. -/
theorem uniqueAssignments_nodup (df : List Row) : (uniqueAssignments df).Nodup :=
  List.nodup_dedup _

/-- A breakpoint date of a group occurs among its employee's dates. -/
theorem asOf_mem_employeeDates {df : List Row} {k : GroupKey} {b : Row}
    (h : b ∈ groupRows df k) : b.asOf ∈ employeeDates df k.emp := by
  obtain ⟨hdf, hm⟩ := mem_groupRows_matches h
  unfold employeeDates
  rw [List.mem_insertionSort, List.mem_dedup, List.mem_map]
  exact ⟨b, List.mem_filter.mpr ⟨hdf, by simp [matchesKey_emp hm]⟩, rfl⟩

/-- The employee date list is ascending. -/
theorem employeeDates_sorted (df : List Row) (e : String) :
    (employeeDates df e).Sorted (· ≤ ·) :=
  List.sorted_insertionSort _ _

/-- The employee date list is duplicate-free. -/
theorem employeeDates_nodup (df : List Row) (e : String) :
    (employeeDates df e).Nodup :=
  ((List.perm_insertionSort _ _).nodup_iff).mpr (List.nodup_dedup _)

/-- In a sorted duplicate-free list, the entry after a member's position is
strictly above that member and at most any strictly larger member. -/
theorem next_of_sorted {l : List Nat} (hs : l.Sorted (· ≤ ·)) (hn : l.Nodup)
    {x y : Nat} (hx : x ∈ l) (hy : y ∈ l) (hxy : x < y) :
    ∃ nd, l.get? (l.indexOf x + 1) = some nd ∧ x < nd ∧ nd ≤ y := by
  induction l with
  | nil => simp at hx
  | cons z zs ih =>
    by_cases hxz : x = z
    · subst hxz
      have hy2 : y ∈ zs := by
        rcases List.mem_cons.mp hy with h | h
        · omega
        · exact h
      cases zs with
      | nil => simp at hy2
      | cons w ws =>
        refine ⟨w, ?_, ?_, ?_⟩
        · rw [List.indexOf_cons_self]
          rfl
        · have hle : x ≤ w := (List.sorted_cons.mp hs).1 w (List.mem_cons_self _ _)
          have hne : x ≠ w := fun he =>
            (List.nodup_cons.mp hn).1 (he ▸ List.mem_cons_self _ _)
          omega
        · rcases List.mem_cons.mp hy2 with rfl | h
          · exact le_refl _
          · exact ((List.sorted_cons.mp (List.sorted_cons.mp hs).2).1) y h
    · have hxzs : x ∈ zs := (List.mem_cons.mp hx).resolve_left hxz
      have hyzs : y ∈ zs := by
        rcases List.mem_cons.mp hy with rfl | h
        · have := (List.sorted_cons.mp hs).1 x hxzs
          omega
        · exact h
      obtain ⟨nd, h1, h2, h3⟩ := ih (List.sorted_cons.mp hs).2
        (List.nodup_cons.mp hn).2 hxzs hyzs
      refine ⟨nd, ?_, h2, h3⟩
      rw [List.indexOf_cons_ne _ (fun he => hxz he.symm)]
      rw [Nat.succ_eq_add_one, List.get?_cons_succ]
      exact h1

/-- A breakpoint's period ends strictly before any later date of the same
employee, whatever the global horizon. -/
theorem periodEnd_lt_next {l : List Nat} (hs : l.Sorted (· ≤ ·)) (hn : l.Nodup)
    {x y : Nat} (hx : x ∈ l) (hy : y ∈ l) (hxy : x < y) (m : Nat) :
    periodEnd l m x < y := by
  obtain ⟨nd, hnd, hxnd, hndy⟩ := next_of_sorted hs hn hx hy hxy
  unfold periodEnd
  rw [hnd]
  show nd - 1 < y
  omega

/-- Every expanded row of a group passes that group's mask (the copied
dimension columns are untouched; only AsOfDate is rewritten). -/
theorem mem_expandGroup_key {df : List Row} {m : Nat} {k : GroupKey} {r2 : Row}
    (h : r2 ∈ expandGroup df m k) : matchesKey r2 k = true := by
  simp only [expandGroup] at h
  obtain ⟨b, hb, hr2⟩ := List.mem_flatMap.mp h
  obtain ⟨-, hbm⟩ := mem_groupRows_matches hb
  revert hr2
  split
  · intro hr2
    obtain ⟨i, -, hup⟩ := List.mem_map.mp hr2
    rw [← hup]
    exact hbm
  · intro hr2
    simp at hr2

/-- A flatMap over a duplicate-free list collapses to its only nonempty
entry. -/
theorem flatMap_single {α β : Type} {l : List α} {g : α → List β} {k : α}
    (hnd : l.Nodup) (hk : k ∈ l) (hz : ∀ x ∈ l, x ≠ k → g x = []) :
    l.flatMap g = g k := by
  induction l with
  | nil => simp at hk
  | cons x xs ih =>
    rcases List.mem_cons.mp hk with rfl | hk2
    · have hall : ∀ y ∈ xs, g y = [] := fun y hy =>
        hz y (List.mem_cons.mpr (Or.inr hy))
          (fun he => (List.nodup_cons.mp hnd).1 (he ▸ hy))
      rw [List.flatMap_cons, List.flatMap_eq_nil_iff.mpr hall, List.append_nil]
    · have hxk : x ≠ k := fun he => (List.nodup_cons.mp hnd).1 (he ▸ hk2)
      rw [List.flatMap_cons, hz x (List.mem_cons_self _ _) hxk, List.nil_append]
      exact ih (List.nodup_cons.mp hnd).2 hk2
        (fun y hy => hz y (List.mem_cons.mpr (Or.inr hy)))

/-- Restricting the full expansion to one key's mask yields exactly that
key's group expansion: a row matches at most one key, and each key occurs
once in the de-duplicated assignment list. -/
theorem filter_expandAll_eq (df : List Row) (k : GroupKey)
    (hk : k ∈ uniqueAssignments df) :
    (expandAll df).filter (fun r => matchesKey r k) =
      expandGroup df (maxDate df) k := by
  unfold expandAll
  rw [List.filter_flatMap]
  rw [flatMap_single (uniqueAssignments_nodup df) hk ?hz]
  case hz =>
    intro x hx hne
    rw [List.filter_eq_nil_iff]
    intro r2 hr2 hm
    have h1 : matchesKey r2 x = true := mem_expandGroup_key hr2
    exact hne ((matchesKey_groupKey h1).symm.trans
      (matchesKey_groupKey (of_decide_eq_true (by simpa using hm))))
  · exact List.filter_eq_self.mpr (fun r2 hr2 => by
      simpa using mem_expandGroup_key hr2)

/-- The day labels emitted for one group, breakpoint by breakpoint: each
positive-percent breakpoint with a valid range contributes the consecutive
days of its period. -/
theorem expandGroup_map_asOf (df : List Row) (m : Nat) (k : GroupKey) :
    (expandGroup df m k).map Row.asOf =
      (groupRows df k).flatMap (fun b =>
        if b.asOf ≤ periodEnd (employeeDates df k.emp) m b.asOf ∧ 0 < b.percent then
          (List.range (periodEnd (employeeDates df k.emp) m b.asOf + 1 - b.asOf)).map
            (fun i => b.asOf + i)
        else []) := by
  simp only [expandGroup]
  rw [List.map_flatMap]
  apply congrArg
  funext b
  rw [apply_ite (List.map Row.asOf), List.map_map, List.map_nil]
  rfl

/-- Bounds carried by membership in one breakpoint's day-label list. -/
theorem mem_ite_range_map {c : Prop} [Decidable c] {s n d : Nat}
    (h : d ∈ (if c then (List.range n).map (fun i => s + i) else [])) :
    c ∧ s ≤ d ∧ d < s + n := by
  by_cases hc : c
  · rw [if_pos hc] at h
    obtain ⟨i, hi, hd⟩ := List.mem_map.mp h
    have := List.mem_range.mp hi
    exact ⟨hc, by omega, by omega⟩
  · rw [if_neg hc] at h
    simp at h

/-- Conversely, every in-range day occurs in the breakpoint's day-label
list. -/
theorem mem_ite_range_map_of {c : Prop} [Decidable c] {s n d : Nat}
    (hc : c) (h1 : s ≤ d) (h2 : d < s + n) :
    d ∈ (if c then (List.range n).map (fun i => s + i) else []) := by
  rw [if_pos hc]
  exact List.mem_map.mpr ⟨d - s, List.mem_range.mpr (by omega), by omega⟩

/-- Day-label membership for one group: exactly the days between some
positive-percent breakpoint and that breakpoint's period end. -/
theorem expandGroup_days_mem (df : List Row) (m : Nat) (k : GroupKey) (d : Nat) :
    d ∈ (expandGroup df m k).map Row.asOf ↔
      ∃ b ∈ groupRows df k, 0 < b.percent ∧ b.asOf ≤ d ∧
        d ≤ periodEnd (employeeDates df k.emp) m b.asOf := by
  rw [expandGroup_map_asOf, List.mem_flatMap]
  constructor
  · rintro ⟨b, hb, hd⟩
    obtain ⟨⟨hle, hpos⟩, h1, h2⟩ := mem_ite_range_map hd
    exact ⟨b, hb, hpos, h1, by omega⟩
  · rintro ⟨b, hb, hpos, h1, h2⟩
    exact ⟨b, hb, mem_ite_range_map_of ⟨by omega, hpos⟩ h1 (by omega)⟩

/-- With pairwise-distinct breakpoint dates, the emitted day labels of one
group are duplicate-free: consecutive breakpoints' periods cannot overlap,
because each period ends before the employee's next date. -/
theorem expandGroup_days_nodup (df : List Row) (m : Nat) (k : GroupKey)
    (hd : (groupRows df k).Pairwise (fun a b => a.asOf ≠ b.asOf)) :
    ((expandGroup df m k).map Row.asOf).Nodup := by
  rw [expandGroup_map_asOf, List.nodup_flatMap]
  constructor
  · intro b hb
    split
    · exact List.Nodup.map (fun i j hij => by omega) (List.nodup_range _)
    · exact List.nodup_nil
  · have hs : List.Sorted (fun a b : Row => a.asOf ≤ b.asOf) (groupRows df k) :=
      List.sorted_insertionSort _ _
    have hlt : (groupRows df k).Pairwise (fun a b => a.asOf < b.asOf) :=
      (List.Pairwise.and hs hd).imp (fun h => lt_of_le_of_ne h.1 h.2)
    refine hlt.imp_of_mem ?_
    intro a b ha hb hab
    intro d hda hdb
    obtain ⟨⟨-, -⟩, -, h2⟩ := mem_ite_range_map hda
    obtain ⟨⟨hble, -⟩, h3, -⟩ := mem_ite_range_map hdb
    have hea : d ≤ periodEnd (employeeDates df k.emp) m a.asOf := by omega
    have hend : periodEnd (employeeDates df k.emp) m a.asOf < b.asOf :=
      periodEnd_lt_next (employeeDates_sorted df k.emp) (employeeDates_nodup df k.emp)
        (asOf_mem_employeeDates ha) (asOf_mem_employeeDates hb) hab m
    omega

/-- A key absent from the de-duplicated assignment list selects no rows:
any row passing its mask would have put the key in the list. -/
theorem groupRows_nil_of_not_mem (df : List Row) (k : GroupKey)
    (hk : k ∉ uniqueAssignments df) : groupRows df k = [] := by
  unfold groupRows
  have hfil : df.filter (fun r => matchesKey r k) = [] := by
    rw [List.filter_eq_nil_iff]
    intro r hr hm
    exact hk (List.mem_dedup.mpr (List.mem_map.mpr ⟨r, hr, matchesKey_groupKey hm⟩))
  rw [hfil]
  rfl

/-- A key absent from the de-duplicated assignment list also matches no
expanded row: every expanded row carries some processed key. -/
theorem filter_expandAll_nil (df : List Row) (k : GroupKey)
    (hk : k ∉ uniqueAssignments df) :
    (expandAll df).filter (fun r => matchesKey r k) = [] := by
  rw [List.filter_eq_nil_iff]
  intro r2 hr2 hm
  unfold expandAll at hr2
  obtain ⟨x, hx, hr2x⟩ := List.mem_flatMap.mp hr2
  have h1 : matchesKey r2 x = true := mem_expandGroup_key hr2x
  have h2 : matchesKey r2 k = true := by simpa using hm
  exact hk (((matchesKey_groupKey h2).symm.trans (matchesKey_groupKey h1)) ▸ hx)

/-- Claim C1 counterexample: employee E holds group T1 (single positive
breakpoint at day 0, never exiting) and sibling group T2 with a later
breakpoint at day 5 (the global maximum).  The claim demands T1's days to
run through day 5; the code stops T1 at day 4, the day before the sibling
group's breakpoint.  Moreover a group with two same-date positive
breakpoints (60% and 40% at day 0, kept un-merged) emits the duplicated day
labels [0, 0], refuting the no-duplicates part as well. -/
theorem horizon_truncated_by_sibling_group :
    ((expandAll [c1RowT1, c1RowT2]).filter
        (fun r => matchesKey r (groupKeyOf c1RowT1))).map Row.asOf = [0, 1, 2, 3, 4] ∧
    maxDate [c1RowT1, c1RowT2] = 5 ∧
    (∀ b ∈ groupRows [c1RowT1, c1RowT2] (groupKeyOf c1RowT1), 0 < b.percent) ∧
    5 ∉ ((expandAll [c1RowT1, c1RowT2]).filter
        (fun r => matchesKey r (groupKeyOf c1RowT1))).map Row.asOf ∧
    ((expandAll [c1DupA, c1DupB]).filter
        (fun r => matchesKey r (groupKeyOf c1DupA))).map Row.asOf = [0, 0] ∧
    ¬ (((expandAll [c1DupA, c1DupB]).filter
        (fun r => matchesKey r (groupKeyOf c1DupA))).map Row.asOf).Nodup := by
  decide

/-- Claim C1 (corrected): for every assignment group, the day labels of its
expanded output are exactly the days lying between some positive-percent
breakpoint of the group and that breakpoint's period end — the day before
the employee's next breakpoint date across all of that employee's groups,
or the global maximum date when no later employee date exists — so a
sibling group's later breakpoint truncates the final interval short of the
global horizon; and the labels are duplicate-free whenever the group's
breakpoint dates are pairwise distinct (same-date breakpoints, kept
un-merged, each emit their own copy of the shared period's days). -/
theorem group_day_conservation (df : List Row) (k : GroupKey) :
    (∀ d : Nat,
      d ∈ ((expandAll df).filter (fun r => matchesKey r k)).map Row.asOf ↔
        ∃ b ∈ groupRows df k, 0 < b.percent ∧ b.asOf ≤ d ∧
          d ≤ periodEnd (employeeDates df k.emp) (maxDate df) b.asOf) ∧
    ((groupRows df k).Pairwise (fun a b => a.asOf ≠ b.asOf) →
      (((expandAll df).filter (fun r => matchesKey r k)).map Row.asOf).Nodup) := by
  by_cases hk : k ∈ uniqueAssignments df
  · rw [filter_expandAll_eq df k hk]
    exact ⟨fun d => expandGroup_days_mem df (maxDate df) k d,
      fun hd => expandGroup_days_nodup df (maxDate df) k hd⟩
  · rw [filter_expandAll_nil df k hk, groupRows_nil_of_not_mem df k hk]
    constructor
    · intro d
      simp
    · intro h
      simp

/-- Claim C1 witness: the theorem applied to the concrete two-group input,
with the day-label set of group T1 evaluated at day 4 (present: within the
truncated interval [0, 4]) and the distinct-dates hypothesis discharged on
T1's one-breakpoint group. -/
theorem group_day_conservation_witness :
    (4 ∈ ((expandAll [c1RowT1, c1RowT2]).filter
        (fun r => matchesKey r (groupKeyOf c1RowT1))).map Row.asOf ↔
      ∃ b ∈ groupRows [c1RowT1, c1RowT2] (groupKeyOf c1RowT1), 0 < b.percent ∧
        b.asOf ≤ 4 ∧ 4 ≤ periodEnd
          (employeeDates [c1RowT1, c1RowT2] (groupKeyOf c1RowT1).emp)
          (maxDate [c1RowT1, c1RowT2]) b.asOf) ∧
    (((expandAll [c1RowT1, c1RowT2]).filter
        (fun r => matchesKey r (groupKeyOf c1RowT1))).map Row.asOf).Nodup :=
  ⟨(group_day_conservation [c1RowT1, c1RowT2] (groupKeyOf c1RowT1)).1 4,
   (group_day_conservation [c1RowT1, c1RowT2] (groupKeyOf c1RowT1)).2 (by decide)⟩

end Resourcing
